import Mathlib

/-!
Shallow embedding of `scripts/translations/main.go` from the AdGuardHome
repository: a localization helper tool with commands `summary`, `download`,
`unused` and `upload`.

Byte strings (file contents, text labels) are modelled as `List Nat` (one
`Nat` per byte).  Go maps are modelled as association lists whose keys are
unique (JSON unmarshalling into a Go map cannot produce duplicate keys);
the theorems that need key uniqueness state it explicitly, the others hold
for arbitrary association lists.  Sorting (`slices.Sort`, `sort.Strings`)
is modelled with `List.insertionSort`: the sorted elements are always
pairwise distinct strings/byte lists, so any correct sorting algorithm
produces the same output list.
-/

set_option maxHeartbeats 1000000

namespace Translations

/-- Lexicographic (byte-wise) order on byte strings, as used by Go's
`slices.Sort` on `[]textLabel`. -/
def natListLe : List Nat → List Nat → Bool
  | [], _ => true
  | _ :: _, [] => false
  | a :: as, b :: bs => if a < b then true else if b < a then false else natListLe as bs

/-- Lexicographic order on characters lists by code point; for UTF-8 encoded
strings this coincides with Go's byte-wise string order. -/
def charListLe : List Char → List Char → Bool
  | [], _ => true
  | _ :: _, [] => false
  | a :: as, b :: bs =>
    if a.toNat < b.toNat then true
    else if b.toNat < a.toNat then false
    else charListLe as bs

/-- Go string order (`sort.Strings`, `slices.Sort` on string slices). -/
def strLe (a b : String) : Bool := charListLe a.data b.data

/-- `bytes.HasPrefix`: `pat` is a prefix of `buf`. -/
def bytesHasPfx : List Nat → List Nat → Bool
  | [], _ => true
  | _ :: _, [] => false
  | a :: as, b :: bs => a == b && bytesHasPfx as bs

/-- `bytes.Contains(buf, pat)`: `pat` occurs as a contiguous byte substring
of `buf` (the empty pattern is contained in everything). -/
def bytesContains (buf pat : List Nat) : Bool :=
  match buf with
  | [] => pat.isEmpty
  | _ :: rest => bytesHasPfx pat buf || bytesContains rest pat

/-- The UTF-8 bytes of an ASCII string, as a byte list. -/
def strBytes (s : String) : List Nat := s.data.map Char.toNat

/-- `textLabel` is a text label of localization (`textLabel string` in the
source), as its byte string. -/
abbrev textLabel := List Nat

/-- `locales` is a map where the key is a text label and the value is a
translation (`map[textLabel]string`), as an association list. -/
abbrev locales := List (textLabel × List Nat)

/-- `delete(loc, v)`: remove the entry with key `k` from the map. -/
def localesDelete (loc : locales) (k : textLabel) : locales :=
  loc.filter (fun p => !decide (p.1 = k))

/-- One iteration of the file loop in `removeUnused`: for every key still in
`loc`, if the file contents `buf` contain the key as a byte substring, the
key is deleted.  (Go iterates the map in arbitrary order, but since every
key is tested against the same fixed `buf`, the resulting map does not
depend on the order.) -/
def scanFile (buf : List Nat) (loc : locales) : locales :=
  loc.filter (fun p => !bytesContains buf p.1)

/-- The file loop of `removeUnused`: each element of `reads` is the result
of `os.ReadFile` for one file name.  A read error is returned immediately,
aborting the loop. -/
def scanFiles : List (Except String (List Nat)) → locales → Except String locales
  | [], loc => .ok loc
  | .error e :: _, _ => .error e
  | .ok buf :: rest, loc => scanFiles rest (scanFile buf loc)

/-- The fixed allow-list `knownUsed` of `removeUnused`. -/
def knownUsed : List textLabel :=
  [strBytes "blocking_mode_refused",
   strBytes "blocking_mode_nxdomain",
   strBytes "blocking_mode_custom_ip"]

/-- `printUnused`: the labels printed to stdout, sorted lexicographically,
one per line. -/
def printUnused (loc : locales) : List textLabel :=
  (loc.map Prod.fst).insertionSort (fun a b => natListLe a b = true)

/-- `removeUnused(fileNames, loc)`, with the file system abstracted: `reads`
is the list of `os.ReadFile` results for the scanned file names, and the
allow-list is a parameter (the source fixes it to `knownUsed`).  Returns
the sorted list of printed labels, or the first file read error. -/
def removeUnused (reads : List (Except String (List Nat))) (allowList : List textLabel)
    (loc : locales) : Except String (List textLabel) :=
  let loc1 := allowList.foldl localesDelete loc
  match scanFiles reads loc1 with
  | .error e => .error e
  | .ok loc2 => .ok (printUnused loc2)

/-- `removeUnused` exactly as in the source, with its fixed allow-list. -/
def removeUnusedGo (reads : List (Except String (List Nat))) (loc : locales) :
    Except String (List textLabel) :=
  removeUnused reads knownUsed loc

theorem foldl_localesDelete (allow : List textLabel) (loc : locales) :
    allow.foldl localesDelete loc = loc.filter (fun p => !decide (p.1 ∈ allow)) := by
  induction allow generalizing loc with
  | nil => simp [List.foldl]
  | cons a as ih =>
    rw [List.foldl_cons, ih, localesDelete, List.filter_filter]
    apply List.filter_congr
    intro p _
    by_cases h1 : p.1 = a <;> by_cases h2 : p.1 ∈ as <;>
      simp [h1, h2, List.mem_cons]

theorem scanFiles_ok (files : List (List Nat)) (loc : locales) :
    scanFiles (files.map .ok) loc =
      .ok (loc.filter (fun p => !files.any (fun f => bytesContains f p.1))) := by
  induction files generalizing loc with
  | nil => simp [scanFiles, List.filter_true]
  | cons f fs ih =>
    rw [List.map_cons]
    show scanFiles (fs.map .ok) (scanFile f loc) = _
    rw [ih, scanFile, List.filter_filter]
    congr 1
    apply List.filter_congr
    intro p _
    by_cases h1 : bytesContains f p.1 <;> by_cases h2 : fs.any (fun g => bytesContains g p.1) <;>
      simp [h1, h2]

theorem natListLe_total (a b : List Nat) : natListLe a b = true ∨ natListLe b a = true := by
  induction a generalizing b with
  | nil => left; simp [natListLe]
  | cons x xs ih =>
    cases b with
    | nil => right; simp [natListLe]
    | cons y ys =>
      rcases Nat.lt_trichotomy x y with h | h | h
      · left; simp [natListLe, h]
      · subst h
        rcases ih ys with h2 | h2
        · left; simp [natListLe, h2]
        · right; simp [natListLe, h2]
      · right; simp [natListLe, h]

theorem natListLe_trans : ∀ {a b c : List Nat},
    natListLe a b = true → natListLe b c = true → natListLe a c = true := by
  intro a
  induction a with
  | nil => intro b c _ _; simp [natListLe]
  | cons x xs ih =>
    intro b c hab hbc
    cases b with
    | nil => simp [natListLe] at hab
    | cons y ys =>
      cases c with
      | nil => simp [natListLe] at hbc
      | cons z zs =>
        simp only [natListLe] at hab hbc ⊢
        by_cases hxy : x < y
        · by_cases hyz : y < z
          · simp [Nat.lt_trans hxy hyz]
          · have hzy : ¬ z < y := by
              intro h; simp [hyz, h] at hbc
            have hxz : x < z := by omega
            simp [hxz]
        · have hyx : ¬ y < x := by
            intro h; simp [hxy, h] at hab
          have hxy' : x = y := by omega
          subst hxy'
          by_cases hxz : x < z
          · simp [hxz]
          · have hzx : ¬ z < x := by
              intro h; simp [hxz, h] at hbc
            simp [hxy, hxz, hzx] at hab hbc ⊢
            exact ih hab hbc

instance : IsTotal (List Nat) (fun a b => natListLe a b = true) := ⟨natListLe_total⟩

instance : IsTrans (List Nat) (fun a b => natListLe a b = true) :=
  ⟨fun _ _ _ => natListLe_trans⟩

theorem map_fst_filter_comp (p : textLabel → Bool) (loc : locales) :
    (loc.filter (fun a => p a.1)).map Prod.fst = (loc.map Prod.fst).filter p := by
  rw [List.filter_map]
  rfl

/-- C1.  For every base Locale Map, allow-list and list of scanned file
contents (all reads succeeding), `removeUnused` prints exactly the keys of
the base map minus the allow-list minus every key occurring as a literal
byte substring of some scanned file, sorted lexicographically; and on the
spec's concrete instance (base map a/b/c, allow-list b, one file containing
"a") the printed set is exactly ["c"].  The printed list is sorted. -/
theorem removeUnused_unused_labels (files : List (List Nat)) (allow : List textLabel)
    (loc : locales) :
    removeUnused (files.map .ok) allow loc =
      .ok (((loc.map Prod.fst).filter
          (fun k => !decide (k ∈ allow) && !files.any (fun f => bytesContains f k))).insertionSort
        (fun a b => natListLe a b = true))
    ∧ List.Sorted (fun a b => natListLe a b = true)
        (((loc.map Prod.fst).filter
          (fun k => !decide (k ∈ allow) && !files.any (fun f => bytesContains f k))).insertionSort
        (fun a b => natListLe a b = true))
    ∧ removeUnused [.ok (strBytes "a")] [strBytes "b"]
        [(strBytes "a", strBytes "x"), (strBytes "b", strBytes "y"),
         (strBytes "c", strBytes "z")] = .ok [strBytes "c"] := by
  refine ⟨?_, ?_, ?_⟩
  · rw [removeUnused]
    simp only [foldl_localesDelete, scanFiles_ok, List.filter_filter]
    rw [printUnused, ← map_fst_filter_comp]
    congr 2
    apply congrArg
    apply List.filter_congr
    intro p _
    by_cases h1 : p.1 ∈ allow <;> by_cases h2 : files.any (fun f => bytesContains f p.1) <;>
      simp [h1, h2]
  · exact List.sorted_insertionSort _ _
  · rfl

/-- `strings.HasPrefix(s, pfx)` on character lists. -/
def charsHasPfx : List Char → List Char → Bool
  | [], _ => true
  | _ :: _, [] => false
  | a :: as, b :: bs => a == b && charsHasPfx as bs

/-- `strings.HasPrefix(s, pfx)`. -/
def strHasPfx (s pfx : String) : Bool := charsHasPfx pfx.data s.data

/-- Helper for `filepath.Ext`: scan the characters left to right, keeping the
current extension candidate (the characters after the last dot, including
the dot); a path separator resets the candidate. -/
def extGo : List Char → Option (List Char) → Option (List Char)
  | [], acc => acc
  | c :: rest, acc =>
    if c = '.' then extGo rest (some ['.'])
    else if c = '/' then extGo rest none
    else extGo rest (acc.map (fun cs => cs ++ [c]))

/-- `filepath.Ext(name)`: the suffix of the last element of `name` starting
at its final dot, or the empty string. -/
def filepathExt (s : String) : String :=
  match extGo s.data none with
  | none => ""
  | some cs => String.mk cs

/-- One entry passed to the `filepath.Walk` callback inside `unused`:
its path, whether it is a directory, and whether walking produced an access
error for it (the callback's non-nil `err` argument). -/
structure walkEntry where
  name : String
  isDir : Bool
  accessErr : Bool

/-- `filepath.Clean(localesDir)`, the `locDir` of `unused`. -/
def locDirClean : String := "client/src/__locales"

/-- The body of the `filepath.Walk` callback in `unused`, accumulating
`fileNames`: an access error is logged and the entry skipped; directories,
files under the locales directory, and files whose extension is not `.js`
or `.json` are skipped; every other file name is appended. -/
def walkStep (acc : List String) (e : walkEntry) : List String :=
  if e.accessErr then acc
  else if e.isDir then acc
  else if strHasPfx e.name locDirClean then acc
  else if filepathExt e.name = ".js" || filepathExt e.name = ".json" then acc ++ [e.name]
  else acc

/-- The `fileNames` produced by the walk in `unused` over a given list of
visited entries. -/
def walkCollect (entries : List walkEntry) : List String := entries.foldl walkStep []

theorem walkStep_accessErr (acc : List String) (e : walkEntry) (h : e.accessErr = true) :
    walkStep acc e = acc := by
  simp [walkStep, h]

theorem foldl_walkStep_filter (entries : List walkEntry) (acc : List String) :
    entries.foldl walkStep acc =
      (entries.filter (fun e => !e.accessErr)).foldl walkStep acc := by
  induction entries generalizing acc with
  | nil => rfl
  | cons e es ih =>
    by_cases h : e.accessErr = true
    · rw [List.foldl_cons, walkStep_accessErr acc e h]
      simp only [List.filter_cons, h]
      exact ih acc
    · have h' : e.accessErr = false := by
        cases hq : e.accessErr
        · rfl
        · exact absurd hq h
      simp only [List.foldl_cons, List.filter_cons, h', Bool.not_false, if_pos rfl]
      exact ih (walkStep acc e)

/-- C3 counterexample: in the file-scan loop of `removeUnused`, the failure
to read the first file is not skipped: the whole operation aborts with that
error, and the second file (which would have marked label "a" as used) is
never processed. -/
theorem removeUnused_read_error_aborts_cex :
    removeUnused [.error "open file1.js: permission denied", .ok (strBytes "a")]
        knownUsed [(strBytes "a", strBytes "x"), (strBytes "c", strBytes "z")]
      = .error "open file1.js: permission denied"
    ∧ ∀ out, removeUnused [.error "open file1.js: permission denied", .ok (strBytes "a")]
        knownUsed [(strBytes "a", strBytes "x"), (strBytes "c", strBytes "z")] ≠ .ok out := by
  refine ⟨rfl, fun out h => ?_⟩
  rw [show removeUnused [.error "open file1.js: permission denied", .ok (strBytes "a")]
        knownUsed [(strBytes "a", strBytes "x"), (strBytes "c", strBytes "z")]
      = .error "open file1.js: permission denied" from rfl] at h
  exact Except.noConfusion h

/-- C3 amended: per-item access errors in the directory-walk loop of
`unused` are skipped and the walk continues with the remaining entries
(entries with access errors contribute nothing); but a failure to read a
file inside `removeUnused` aborts the batch with that error instead of
skipping the file. -/
theorem walk_skips_but_scan_aborts :
    (∀ entries : List walkEntry,
      walkCollect entries = walkCollect (entries.filter (fun e => !e.accessErr)))
    ∧ (∀ (msg : String) (rest : List (Except String (List Nat)))
        (allow : List textLabel) (loc : locales),
        removeUnused (.error msg :: rest) allow loc = .error msg) := by
  constructor
  · intro entries
    exact foldl_walkStep_filter entries []
  · intro msg rest allow loc
    rfl

/-- `languages` is a map where the key is a language code and the value is
a display name (`map[langCode]string`), as an association list. -/
abbrev languages := List (String × String)

/-- The `twoskyConf` configuration structure for localization. -/
structure twoskyConf where
  Languages : languages
  ProjectID : String
  BaseLangcode : String
  LocalizableFiles : List String
deriving DecidableEq

/-- `readTwoskyConf`, with the file already read and unmarshalled: `tsc` is
the decoded JSON array of configuration objects.  An empty array is an
error; otherwise the first element is used, and an error is reported iff
some language in it has an empty display name (the Go loop ranges over the
map's values). -/
def readTwoskyConf (tsc : List twoskyConf) : Except String twoskyConf :=
  match tsc with
  | [] => .error "\"./.twosky.json\" is empty"
  | conf :: _ =>
    if conf.Languages.any (fun p => decide (p.2 = "")) then .error "language is empty"
    else .ok conf

/-- A configuration whose language list is empty. -/
def emptyLangsConf : twoskyConf :=
  { Languages := [], ProjectID := "home", BaseLangcode := "en", LocalizableFiles := [] }

/-- C4 counterexample: a configuration whose first element has an empty
language list is accepted by `readTwoskyConf` (no error), contradicting the
claim that it fails. -/
theorem readTwoskyConf_empty_langs_cex :
    readTwoskyConf [emptyLangsConf] = .ok emptyLangsConf
    ∧ ∀ e, readTwoskyConf [emptyLangsConf] ≠ .error e := by
  refine ⟨rfl, fun e h => ?_⟩
  rw [show readTwoskyConf [emptyLangsConf] = .ok emptyLangsConf from rfl] at h
  exact Except.noConfusion h

/-- C4 amended: an empty config array makes `readTwoskyConf` fail; for a
non-empty array, an empty language list in the first element does NOT make
it fail; it fails exactly when some language of the first element has an
empty display name. -/
theorem readTwoskyConf_amended :
    readTwoskyConf [] = .error "\"./.twosky.json\" is empty"
    ∧ (∀ (conf : twoskyConf) (rest : List twoskyConf), conf.Languages = [] →
        readTwoskyConf (conf :: rest) = .ok conf)
    ∧ (∀ (conf : twoskyConf) (rest : List twoskyConf),
        (∃ p ∈ conf.Languages, p.2 = "") → ∃ e, readTwoskyConf (conf :: rest) = .error e)
    ∧ (∀ (conf : twoskyConf) (rest : List twoskyConf),
        (∀ p ∈ conf.Languages, p.2 ≠ "") → readTwoskyConf (conf :: rest) = .ok conf) := by
  refine ⟨rfl, ?_, ?_, ?_⟩
  · intro conf rest h
    simp [readTwoskyConf, h]
  · intro conf rest h
    refine ⟨"language is empty", ?_⟩
    have : conf.Languages.any (fun p => decide (p.2 = "")) = true := by
      rcases h with ⟨p, hp, hpe⟩
      exact List.any_eq_true.mpr ⟨p, hp, by simp [hpe]⟩
    simp [readTwoskyConf, this]
  · intro conf rest h
    have : conf.Languages.any (fun p => decide (p.2 = "")) = false := by
      rw [List.any_eq_false]
      intro p hp
      simp [h p hp]
    simp [readTwoskyConf, this]

/-- Witness for `readTwoskyConf_amended` at concrete configurations. -/
theorem readTwoskyConf_amended_witness :
    readTwoskyConf [emptyLangsConf] = .ok emptyLangsConf
    ∧ (∃ e, readTwoskyConf
        [{ Languages := [("fr", "")], ProjectID := "home", BaseLangcode := "en",
           LocalizableFiles := [] }] = .error e)
    ∧ readTwoskyConf
        [{ Languages := [("fr", "French")], ProjectID := "home", BaseLangcode := "en",
           LocalizableFiles := [] }] =
      .ok { Languages := [("fr", "French")], ProjectID := "home", BaseLangcode := "en",
            LocalizableFiles := [] } := by
  refine ⟨?_, ?_, ?_⟩
  · exact readTwoskyConf_amended.2.1 emptyLangsConf [] rfl
  · exact readTwoskyConf_amended.2.2.1 _ [] ⟨("fr", ""), by simp⟩
  · exact readTwoskyConf_amended.2.2.2 _ [] (by intro p hp; simp at hp; simp [hp])

/-- `url.Values`: the decoded query parameters, one entry per key with the
list of that key's values (Go represents this as `map[string][]string`;
keys are unique there, the association list keeps them in parse order). -/
abbrev Values := List (String × List String)

/-- The entry of `q` for key `k` (first matching entry). -/
def valuesFind (q : Values) (k : String) : Option (String × List String) :=
  q.find? (fun p => decide (p.1 = k))

/-- `Values.Get`-like access returning all values for key `k` (empty list
when the key is absent). -/
def valuesGet (q : Values) (k : String) : List String :=
  match valuesFind q k with
  | some p => p.2
  | none => []

/-- `Values.Set(k, v)`: replace the entry for key `k` by the single value
`v`, adding the entry if the key is absent. -/
def valuesSet (k v : String) : Values → Values
  | [] => [(k, [v])]
  | p :: rest => if p.1 = k then (k, [v]) :: rest else p :: valuesSet k v rest

theorem valuesFind_set_self (k v : String) (q : Values) :
    valuesFind (valuesSet k v q) k = some (k, [v]) := by
  induction q with
  | nil => simp [valuesSet, valuesFind]
  | cons p rest ih =>
    by_cases h : p.1 = k
    · simp [valuesSet, valuesFind, h]
    · simp only [valuesSet, if_neg h]
      rw [valuesFind] at ih ⊢
      simp only [List.find?_cons, decide_eq_true_eq, h, decide_False]
      exact ih

theorem valuesFind_set_ne (k k' v : String) (q : Values) (hk : k ≠ k') :
    valuesFind (valuesSet k' v q) k = valuesFind q k := by
  have hk' : ¬ (k' = k) := fun h => hk h.symm
  induction q with
  | nil =>
    rw [valuesSet, valuesFind, valuesFind,
      List.find?_cons_of_neg _ (by simpa using hk')]
  | cons p rest ih =>
    by_cases h : p.1 = k'
    · have hpk : ¬ p.1 = k := by rw [h]; exact hk'
      rw [valuesSet, if_pos h, valuesFind, valuesFind,
        List.find?_cons_of_neg _ (by simpa using hk'),
        List.find?_cons_of_neg _ (by simpa using hpk)]
    · rw [valuesSet, if_neg h, valuesFind, valuesFind]
      by_cases hpk : p.1 = k
      · rw [List.find?_cons_of_pos _ (by simpa using hpk),
          List.find?_cons_of_pos _ (by simpa using hpk)]
      · rw [List.find?_cons_of_neg _ (by simpa using hpk),
          List.find?_cons_of_neg _ (by simpa using hpk)]
        exact ih

theorem valuesSet_eq_self (k v : String) (q : Values)
    (h : valuesFind q k = some (k, [v])) : valuesSet k v q = q := by
  induction q with
  | nil => simp [valuesFind] at h
  | cons p rest ih =>
    by_cases hp : p.1 = k
    · have : p = (k, [v]) := by
        rw [valuesFind, List.find?_cons, hp] at h
        simpa using h
      simp [valuesSet, hp, this]
    · rw [valuesFind, List.find?_cons] at h
      simp only [hp, decide_False] at h
      simp [valuesSet, hp, ih h]

/-- `url.URL`, restricted to the fields the tool touches.  The `query`
field is the decoded form of `RawQuery` (`uri.Query()` parses it,
`uri.RawQuery = q.Encode()` stores it back; Go's encode/parse pair
round-trips the decoded parameters, so the embedding stores the decoded
values directly). -/
structure URL where
  scheme : String
  host : String
  path : String
  query : Values
  fragment : String
deriving DecidableEq

/-- `translationURL(oldURL, baseFile, projectID, lang)`: copy the URL, then
set the `format`, `filename`, `project` and `language` query parameters and
re-encode the query. -/
def translationURL (oldURL : URL) (baseFile projectID lang : String) : URL :=
  let uri := oldURL
  let q := uri.query
  let q := valuesSet "format" "json" q
  let q := valuesSet "filename" baseFile q
  let q := valuesSet "project" projectID q
  let q := valuesSet "language" lang q
  { uri with query := q }

/-- C5.  `translationURL` overwrites exactly the four managed query
parameters (`format`, `filename`, `project`, `language`) with `json`, the
file name, the project id, and the language code, and preserves every other
pre-existing query parameter of the base URL with its values unchanged. -/
theorem translationURL_query_params (old : URL) (baseFile projectID lang : String)
    (k : String) (hk : k ∉ ["format", "filename", "project", "language"]) :
    valuesGet (translationURL old baseFile projectID lang).query k = valuesGet old.query k
    ∧ valuesGet (translationURL old baseFile projectID lang).query "format" = ["json"]
    ∧ valuesGet (translationURL old baseFile projectID lang).query "filename" = [baseFile]
    ∧ valuesGet (translationURL old baseFile projectID lang).query "project" = [projectID]
    ∧ valuesGet (translationURL old baseFile projectID lang).query "language" = [lang] := by
  simp only [List.mem_cons, List.not_mem_nil, or_false, not_or] at hk
  obtain ⟨h1, h2, h3, h4⟩ := hk
  refine ⟨?_, ?_, ?_, ?_, ?_⟩
  · simp only [translationURL, valuesGet]
    rw [valuesFind_set_ne _ _ _ _ h4, valuesFind_set_ne _ _ _ _ h3,
      valuesFind_set_ne _ _ _ _ h2, valuesFind_set_ne _ _ _ _ h1]
  · simp only [translationURL, valuesGet]
    rw [valuesFind_set_ne _ _ _ _ (by decide : ("format" : String) ≠ "language"),
      valuesFind_set_ne _ _ _ _ (by decide : ("format" : String) ≠ "project"),
      valuesFind_set_ne _ _ _ _ (by decide : ("format" : String) ≠ "filename"),
      valuesFind_set_self]
  · simp only [translationURL, valuesGet]
    rw [valuesFind_set_ne _ _ _ _ (by decide : ("filename" : String) ≠ "language"),
      valuesFind_set_ne _ _ _ _ (by decide : ("filename" : String) ≠ "project"),
      valuesFind_set_self]
  · simp only [translationURL, valuesGet]
    rw [valuesFind_set_ne _ _ _ _ (by decide : ("project" : String) ≠ "language"),
      valuesFind_set_self]
  · simp only [translationURL, valuesGet]
    rw [valuesFind_set_self]

/-- A sample download endpoint URL carrying an unrelated query parameter. -/
def exampleBaseURL : URL :=
  { scheme := "https", host := "twosky.int.agrd.dev", path := "/api/v1/download",
    query := [("token", ["abc"])], fragment := "" }

/-- Witness for `translationURL_query_params` at a concrete URL. -/
theorem translationURL_query_params_witness :
    ("token" : String) ∉ ["format", "filename", "project", "language"]
    ∧ valuesGet (translationURL exampleBaseURL "en.json" "home" "de").query "token" = ["abc"]
    ∧ valuesGet (translationURL exampleBaseURL "en.json" "home" "de").query "format" = ["json"]
    ∧ valuesGet (translationURL exampleBaseURL "en.json" "home" "de").query "language" = ["de"] := by
  have h := translationURL_query_params exampleBaseURL "en.json" "home" "de" "token" (by decide)
  refine ⟨by decide, ?_, h.2.1, h.2.2.2.2⟩
  rw [h.1]
  rfl

theorem charListLe_eq_natListLe (a b : List Char) :
    charListLe a b = natListLe (a.map Char.toNat) (b.map Char.toNat) := by
  induction a generalizing b with
  | nil => cases b <;> simp [charListLe, natListLe]
  | cons x xs ih =>
    cases b with
    | nil => simp [charListLe, natListLe]
    | cons y ys =>
      simp only [charListLe, natListLe, List.map_cons]
      rw [ih]

theorem strLe_total (a b : String) : strLe a b = true ∨ strLe b a = true := by
  rw [strLe, strLe, charListLe_eq_natListLe, charListLe_eq_natListLe]
  exact natListLe_total _ _

theorem strLe_trans {a b c : String} :
    strLe a b = true → strLe b c = true → strLe a c = true := by
  rw [strLe, strLe, strLe, charListLe_eq_natListLe, charListLe_eq_natListLe,
    charListLe_eq_natListLe]
  exact natListLe_trans

instance : IsTotal String (fun a b => strLe a b = true) := ⟨strLe_total⟩

instance : IsTrans String (fun a b => strLe a b = true) := ⟨fun _ _ _ => strLe_trans⟩

/-- The sixteen uppercase hexadecimal digits used by Go's percent-encoding. -/
def hexChar (n : Nat) : Char :=
  ['0', '1', '2', '3', '4', '5', '6', '7', '8', '9',
   'A', 'B', 'C', 'D', 'E', 'F'].getD n '0'

/-- The UTF-8 encoding of a character, as a byte list. -/
def utf8Bytes (c : Char) : List Nat :=
  let n := c.toNat
  if n < 128 then [n]
  else if n < 2048 then [192 + n / 64, 128 + n % 64]
  else if n < 65536 then [224 + n / 4096, 128 + (n / 64) % 64, 128 + n % 64]
  else [240 + n / 262144, 128 + (n / 4096) % 64, 128 + (n / 64) % 64, 128 + n % 64]

/-- `url.QueryEscape` on a single character: unreserved characters are kept,
a space becomes `+`, every other byte of the character's UTF-8 encoding
becomes `%XX` with uppercase hexadecimal digits. -/
def escapeChar (c : Char) : List Char :=
  if c.isAlphanum || c = '-' || c = '_' || c = '.' || c = '~' then [c]
  else if c = ' ' then ['+']
  else ((utf8Bytes c).map (fun b => ['%', hexChar (b / 16), hexChar (b % 16)])).flatten

/-- `url.QueryEscape`. -/
def queryEscape (s : String) : String := String.mk (s.data.map escapeChar).flatten

/-- `url.Values.Encode()`: keys sorted (`sort.Strings`), each value emitted
as `key=value` with both sides query-escaped, the pairs joined by `&`. -/
def encodeQuery (q : Values) : String :=
  let entries := q.insertionSort (fun a b => strLe a.1 b.1 = true)
  String.intercalate "&"
    ((entries.map (fun p => p.2.map (fun v => queryEscape p.1 ++ "=" ++ queryEscape v))).flatten)

/-- `url.URL.String()`, restricted to the modelled fields: the raw query is
the encoding of the decoded query parameters. -/
def urlString (u : URL) : String :=
  u.scheme ++ "://" ++ u.host ++ u.path
    ++ (if encodeQuery u.query = "" then "" else "?" ++ encodeQuery u.query)
    ++ (if u.fragment = "" then "" else "#" ++ u.fragment)

theorem translationURL_query_stable (baseFile projectID lang : String) (q : Values) :
    valuesSet "language" lang (valuesSet "project" projectID (valuesSet "filename" baseFile
      (valuesSet "format" "json" (valuesSet "language" lang (valuesSet "project" projectID
        (valuesSet "filename" baseFile (valuesSet "format" "json" q)))))))
    = valuesSet "language" lang (valuesSet "project" projectID (valuesSet "filename" baseFile
        (valuesSet "format" "json" q))) := by
  set Q := valuesSet "language" lang (valuesSet "project" projectID (valuesSet "filename"
    baseFile (valuesSet "format" "json" q))) with hQ
  have hfmt : valuesFind Q "format" = some ("format", ["json"]) := by
    rw [hQ, valuesFind_set_ne _ _ _ _ (by decide), valuesFind_set_ne _ _ _ _ (by decide),
      valuesFind_set_ne _ _ _ _ (by decide), valuesFind_set_self]
  rw [valuesSet_eq_self _ _ _ hfmt]
  have hfn : valuesFind Q "filename" = some ("filename", [baseFile]) := by
    rw [hQ, valuesFind_set_ne _ _ _ _ (by decide), valuesFind_set_ne _ _ _ _ (by decide),
      valuesFind_set_self]
  rw [valuesSet_eq_self _ _ _ hfn]
  have hpr : valuesFind Q "project" = some ("project", [projectID]) := by
    rw [hQ, valuesFind_set_ne _ _ _ _ (by decide), valuesFind_set_self]
  rw [valuesSet_eq_self _ _ _ hpr]
  have hlg : valuesFind Q "language" = some ("language", [lang]) := by
    rw [hQ, valuesFind_set_self]
  rw [valuesSet_eq_self _ _ _ hlg]

/-- C8.  `translationURL` is idempotent: building the URL a second time
from its own output with the same arguments yields the same URL structure,
and hence a byte-identical URL string. -/
theorem translationURL_idempotent (u : URL) (baseFile projectID lang : String) :
    translationURL (translationURL u baseFile projectID lang) baseFile projectID lang
      = translationURL u baseFile projectID lang
    ∧ urlString (translationURL (translationURL u baseFile projectID lang)
        baseFile projectID lang)
      = urlString (translationURL u baseFile projectID lang) := by
  have h8 : translationURL (translationURL u baseFile projectID lang) baseFile projectID lang
      = translationURL u baseFile projectID lang := by
    simp only [translationURL]
    rw [translationURL_query_stable]
  exact ⟨h8, congrArg urlString h8⟩

/-- The statement-by-statement state of `translationURL`, tracking the pair
(value of `*oldURL`, value of `*uri`): `uri := &url.URL{}` allocates a zero
URL, `*uri = *oldURL` copies the struct through `uri`, the four `q.Set`
calls modify the local copy `q`, and `uri.RawQuery = q.Encode()` writes
through `uri`.  No statement writes through `oldURL`.  Returns the function
result together with the final value of `*oldURL`. -/
def translationURLSteps (oldURL : URL) (baseFile projectID lang : String) : URL × URL :=
  let s0 : URL × URL :=
    (oldURL, { scheme := "", host := "", path := "", query := [], fragment := "" })
  let s1 : URL × URL := (s0.1, s0.1)
  let q := s1.2.query
  let q := valuesSet "format" "json" q
  let q := valuesSet "filename" baseFile q
  let q := valuesSet "project" projectID q
  let q := valuesSet "language" lang q
  let s2 : URL × URL := (s1.1, { s1.2 with query := q })
  (s2.2, s2.1)

/-- `uri.JoinPath(elem)`: append a path element. -/
def joinPath (u : URL) (elem : String) : URL := { u with path := u.path ++ "/" ++ elem }

/-- The constant `defaultBaseFile`. -/
def defaultBaseFile : String := "en.json"

/-- C10.  `translationURL` returns a fresh URL and leaves every field of
its input URL unchanged: stepping through the body, the final value of
`*oldURL` equals its initial value while the result equals the pure
function; in particular the download coordinator's shared `download`
endpoint URL is identical before and after each per-language task URL is
built. -/
theorem translationURL_frame (old : URL) (baseFile projectID lang : String) :
    (translationURLSteps old baseFile projectID lang).2 = old
    ∧ (translationURLSteps old baseFile projectID lang).1
      = translationURL old baseFile projectID lang
    ∧ ∀ (uri : URL) (pid l2 : String),
      (translationURLSteps (joinPath uri "download") defaultBaseFile pid l2).2
        = joinPath uri "download" :=
  ⟨rfl, rfl, fun _ _ _ => rfl⟩

/-- The observable outcome of the `download` command before any worker
runs: either a usage error with an exit code, or a run with the list of
per-language task URLs enqueued for the workers.  (Go ranges over the
languages map in arbitrary order; the model fixes the configuration
order, which is irrelevant to the claims, none of which depend on task
order.) -/
inductive downloadOutcome where
  | usageExit (code : Nat)
  | run (tasks : List URL)
deriving DecidableEq

/-- The network requests an outcome will attempt. -/
def tasksOf : downloadOutcome → List URL
  | .usageExit _ => []
  | .run ts => ts

/-- `download(uri, projectID, langs)` with the already-parsed `-n` flag
value: a worker count below 1 prints usage and exits with code 1 before the
download endpoint is built or any task is enqueued; otherwise one task URL
per configured language is built from the shared `download` endpoint. -/
def download (numWorker : Int) (uri : URL) (projectID : String) (langs : languages) :
    downloadOutcome :=
  if numWorker < 1 then .usageExit 1
  else .run ((langs.map Prod.fst).map (fun lang =>
    translationURL (joinPath uri "download") defaultBaseFile projectID lang))

/-- C7.  For every worker count `n ≤ 0`, the download command exits with a
usage error, code 1, and attempts no network call. -/
theorem download_nonpositive_usage (n : Int) (uri : URL) (projectID : String)
    (langs : languages) (hn : n ≤ 0) :
    download n uri projectID langs = .usageExit 1
    ∧ tasksOf (download n uri projectID langs) = [] := by
  have h : n < 1 := by omega
  rw [download, if_pos h]
  exact ⟨rfl, rfl⟩

/-- Witness for `download_nonpositive_usage` at `n = 0` and `n = -1`. -/
theorem download_nonpositive_usage_witness :
    download 0 exampleBaseURL "home" [("de", "German")] = .usageExit 1
    ∧ download (-1) exampleBaseURL "home" [("de", "German")] = .usageExit 1 :=
  ⟨(download_nonpositive_usage 0 exampleBaseURL "home" [("de", "German")] (by decide)).1,
   (download_nonpositive_usage (-1) exampleBaseURL "home" [("de", "German")] (by decide)).1⟩

/-- The error outcomes of `getTranslation`. -/
inductive fetchError where
  | httpStatus (status : Nat)
  | sizeLimit
deriving DecidableEq

/-- The fixed read limit: 1 MiB. -/
def readLimit : Nat := 1 * 1024 * 1024

/-- Modelled from the spec: `aghio.LimitReader` lives in
`internal/aghio`, which is not under `src/`.  Per the spec, the response
body is capped at a fixed maximum size (1 MiB) and reading beyond this
limit fails with a SizeLimitError rather than silently truncating. -/
def limitRead (body : List Nat) : Except fetchError (List Nat) :=
  if readLimit < body.length then .error .sizeLimit else .ok body

/-- `getTranslation`, with the HTTP exchange abstracted to the response's
status code and full body: a non-200 status is an error, otherwise the body
is read through the 1 MiB limit reader. -/
def getTranslation (status : Nat) (body : List Nat) : Except fetchError (List Nat) :=
  if status ≠ 200 then .error (.httpStatus status)
  else limitRead body

/-- C6.  `getTranslation` fails with an HTTP status error whenever the
response status is not 200; with a 200 status and a body over 1 MiB it
fails with the size-limit error rather than returning truncated data; and
it returns data exactly when the status is 200 and the body fits within
the cap, in which case the data is the full body. -/
theorem getTranslation_status_and_limit (status : Nat) (body : List Nat) :
    (status ≠ 200 → getTranslation status body = .error (.httpStatus status))
    ∧ (status = 200 → readLimit < body.length →
        getTranslation status body = .error .sizeLimit)
    ∧ (∀ data, getTranslation status body = .ok data ↔
        status = 200 ∧ body.length ≤ readLimit ∧ data = body) := by
  refine ⟨fun h => by simp [getTranslation, h], fun h hl => ?_, fun data => ?_⟩
  · simp [getTranslation, h, limitRead, hl]
  · constructor
    · intro h
      by_cases hs : status = 200
      · rw [getTranslation, if_neg (by simp [hs])] at h
        by_cases hl : readLimit < body.length
        · rw [limitRead, if_pos hl] at h
          exact Except.noConfusion h
        · rw [limitRead, if_neg hl] at h
          exact ⟨hs, by omega, (Except.ok.injEq _ _).mp h |>.symm⟩
      · rw [getTranslation, if_pos hs] at h
        exact Except.noConfusion h
    · rintro ⟨hs, hl, hd⟩
      rw [getTranslation, if_neg (by simp [hs]), limitRead, if_neg (by omega), hd]

/-- Witness for `getTranslation_status_and_limit`: a 404 status fails, a
body one byte over the limit fails with the size-limit error, and a small
200 response returns its body. -/
theorem getTranslation_status_and_limit_witness :
    getTranslation 404 [] = .error (.httpStatus 404)
    ∧ getTranslation 200 (List.replicate (1 * 1024 * 1024 + 1) 0) = .error .sizeLimit
    ∧ getTranslation 200 (strBytes "ok") = .ok (strBytes "ok") :=
  ⟨(getTranslation_status_and_limit 404 []).1 (by decide),
   (getTranslation_status_and_limit 200 _).2.1 rfl
     (by rw [List.length_replicate, readLimit]; omega),
   ((getTranslation_status_and_limit 200 _).2.2 _).mpr
     ⟨rfl, by norm_num [readLimit, strBytes], rfl⟩⟩

/-- `filepath.Join(dir, file)` for a cleaned directory path. -/
def filePathJoin (dir file : String) : String := dir ++ "/" ++ file

/-- `basePath := filepath.Join(localesDir, defaultBaseFile)`, the fixed base
locale file path (cleaned). -/
def basePath : String := filePathJoin locDirClean defaultBaseFile

/-- The locale file path derived from a language code:
`filepath.Join(localesDir, string(lang)+".json")` (cleaned). -/
def langPath (lang : String) : String := filePathJoin locDirClean (lang ++ ".json")

/-- The number of keys of the locale map at path `p` (0 when reading
fails; used only under the assumption that the read succeeds). -/
def locCount (fs : String → Except String locales) (p : String) : Nat :=
  match fs p with
  | .ok loc => loc.length
  | .error _ => 0

/-- The loop of `summary` over the sorted language codes: a language whose
derived file name equals `basePath` is skipped; otherwise its locale map is
read (a read error aborts) and the line `(lang, len(loc) * 100 / size)` is
emitted. -/
def summaryGo (fs : String → Except String locales) (size : Rat) :
    List String → Except String (List (String × Rat))
  | [] => .ok []
  | lang :: rest =>
    if langPath lang = basePath then summaryGo fs size rest
    else
      match fs (langPath lang) with
      | .error e => .error ("summary: reading locales: " ++ e)
      | .ok loc =>
        match summaryGo fs size rest with
        | .error e => .error e
        | .ok lines => .ok ((lang, (loc.length : Rat) * 100 / size) :: lines)

/-- `summary(langs)` with the file system abstracted as `fs`: read the base
locale map, then iterate the language codes in sorted order.  Returns the
printed `(language, percentage)` lines.  The percentage arithmetic
`float64(len(loc)) * 100 / size` is modelled exactly over the rationals. -/
def summary (fs : String → Except String locales) (langs : languages) :
    Except String (List (String × Rat)) :=
  match fs basePath with
  | .error e => .error ("summary: " ++ e)
  | .ok baseLoc =>
    summaryGo fs ((baseLoc.length : Rat))
      ((langs.map Prod.fst).insertionSort (fun a b => strLe a b = true))

/-- A decimal digit character. -/
def digitChar (n : Nat) : Char :=
  match n with
  | 0 => '0' | 1 => '1' | 2 => '2' | 3 => '3' | 4 => '4'
  | 5 => '5' | 6 => '6' | 7 => '7' | 8 => '8' | _ => '9'

/-- Decimal digits of `n` (with fuel for structural recursion). -/
def natDigits : Nat → Nat → List Char
  | 0, _ => []
  | fuel + 1, n => if n < 10 then [digitChar n] else natDigits fuel (n / 10) ++ [digitChar (n % 10)]

/-- Decimal rendering of a natural number. -/
def natStr (n : Nat) : String := String.mk (natDigits (n + 1) n)

/-- The value of a nonnegative rational in hundredths, rounded to the
nearest integer: `⌊100 x + 1/2⌋`.  This models rounding to two decimal
places as done by `%6.2f` (the Go code formats a `float64`; on the exact
values exercised here the two agree). -/
def hundredths (x : Rat) : Int := Int.fdiv (200 * x.num + x.den) (2 * x.den)

/-- `%6.2f` for a nonnegative value: two decimal places, right-aligned in a
field of width 6. -/
def format62 (x : Rat) : String :=
  let h := (hundredths x).toNat
  let s := natStr (h / 100) ++ "." ++ String.mk [digitChar (h % 100 / 10), digitChar (h % 10)]
  String.mk (List.replicate (6 - s.length) ' ') ++ s

/-- One printed summary line: `fmt.Printf("%s\t %6.2f %%\n", lang, f)`. -/
def summaryLine (lang : String) (x : Rat) : String :=
  lang ++ "\t " ++ format62 x ++ " %"

theorem summaryGo_ok (fs : String → Except String locales) (size : Rat) (ls : List String)
    (hreads : ∀ lang, langPath lang ≠ basePath →
      ∃ loc : locales, fs (langPath lang) = .ok loc) :
    summaryGo fs size ls =
      .ok ((ls.filter (fun lang => !decide (langPath lang = basePath))).map
        (fun lang => (lang, (locCount fs (langPath lang) : Rat) * 100 / size))) := by
  induction ls with
  | nil => rfl
  | cons lang rest ih =>
    by_cases h : langPath lang = basePath
    · rw [summaryGo, if_pos h, ih, List.filter_cons]
      simp [h]
    · obtain ⟨loc, hloc⟩ := hreads lang h
      rw [summaryGo, if_neg h, hloc, ih, List.filter_cons]
      have hc : locCount fs (langPath lang) = loc.length := by
        rw [locCount, hloc]
      simp [h, hc]

/-- C2.  For a well-formed base Locale Map with at least one key and all
language reads succeeding, `summary` prints one line per configured
language (other than the base file), in lexicographically sorted order of
language code, whose value is `(number of keys of that language's map) *
100 / (number of keys of the base map)` — modelled exactly over ℚ — and
`%6.2f` renders a base of 10 keys and a language of 5 keys as "50.00 %". -/
theorem summary_percentages (fs : String → Except String locales) (langs : languages)
    (baseLoc : locales) (hbase : fs basePath = .ok baseLoc) (hn : 0 < baseLoc.length)
    (hreads : ∀ lang, langPath lang ≠ basePath →
      ∃ loc : locales, fs (langPath lang) = .ok loc) :
    summary fs langs =
      .ok ((((langs.map Prod.fst).insertionSort (fun a b => strLe a b = true)).filter
          (fun lang => !decide (langPath lang = basePath))).map
        (fun lang => (lang, (locCount fs (langPath lang) : Rat) * 100 / (baseLoc.length : Rat))))
    ∧ List.Sorted (fun a b => strLe a b = true)
        (((langs.map Prod.fst).insertionSort (fun a b => strLe a b = true)).filter
          (fun lang => !decide (langPath lang = basePath)))
    ∧ summaryLine "fr" ((5 : Rat) * 100 / (10 : Rat)) = "fr\t  50.00 %" := by
  refine ⟨?_, ?_, ?_⟩
  · simp only [summary, hbase]
    exact summaryGo_ok fs _ _ hreads
  · exact (List.sorted_insertionSort _ _).filter _
  · have h5 : ((5 : Rat) * 100 / (10 : Rat)) = (50 : Rat) := by norm_num
    rw [h5]
    have hh : hundredths (50 : Rat) = 5000 := by
      rw [hundredths]
      norm_num
      decide
    rw [summaryLine, format62, hh]
    rfl

/-- Base locale map with 10 keys. -/
def exBaseLoc : locales := (List.range 10).map (fun i => ([107, i], []))

/-- A language locale map with 5 keys. -/
def exFrLoc : locales := (List.range 5).map (fun i => ([107, i], []))

/-- A sample file system: the base file has 10 keys, `fr.json` has 5 keys,
and every other locale file exists and is empty. -/
def exampleFS : String → Except String locales := fun p =>
  if p = basePath then .ok exBaseLoc
  else if p = langPath "fr" then .ok exFrLoc
  else .ok []

theorem exampleFS_reads : ∀ lang, langPath lang ≠ basePath →
    ∃ loc : locales, exampleFS (langPath lang) = .ok loc := by
  intro lang _
  simp only [exampleFS]
  split_ifs <;> exact ⟨_, rfl⟩

/-- Witness for `summary_percentages`: base of 10 keys, one language "fr"
with 5 keys, giving the 50% line. -/
theorem summary_percentages_witness :
    0 < exBaseLoc.length
    ∧ summary exampleFS [("fr", "French")] =
        .ok [("fr", ((5 : Nat) : Rat) * 100 / ((10 : Nat) : Rat))]
    ∧ summaryLine "fr" ((5 : Rat) * 100 / (10 : Rat)) = "fr\t  50.00 %" := by
  have h := summary_percentages exampleFS [("fr", "French")] exBaseLoc rfl
    (by norm_num [exBaseLoc]) exampleFS_reads
  refine ⟨by norm_num [exBaseLoc], ?_, h.2.2⟩
  rw [h.1]
  rfl

/-- The language codes reported by `summary` (none on error). -/
def reportedLangs (fs : String → Except String locales) (langs : languages) : List String :=
  match summary fs langs with
  | .ok lines => lines.map Prod.fst
  | .error _ => []

/-- C9.  `summary` skips a configured language exactly when its derived
file path equals the fixed base path, which happens exactly for the code
"en"; consequently, when the configured `base_locale` is not "en" it is
still reported (if configured) while "en" is still skipped. -/
theorem summary_skips_exactly_en :
    (∀ lang : String, langPath lang = basePath ↔ lang = "en")
    ∧ (∀ (fs : String → Except String locales) (langs : languages) (baseLoc : locales),
        fs basePath = .ok baseLoc →
        (∀ lang, langPath lang ≠ basePath → ∃ loc : locales, fs (langPath lang) = .ok loc) →
        ∀ lang, lang ∈ reportedLangs fs langs ↔ lang ∈ langs.map Prod.fst ∧ lang ≠ "en")
    ∧ (∀ (conf : twoskyConf) (fs : String → Except String locales) (baseLoc : locales),
        fs basePath = .ok baseLoc →
        (∀ lang, langPath lang ≠ basePath → ∃ loc : locales, fs (langPath lang) = .ok loc) →
        conf.BaseLangcode ≠ "en" → conf.BaseLangcode ∈ conf.Languages.map Prod.fst →
        conf.BaseLangcode ∈ reportedLangs fs conf.Languages
        ∧ "en" ∉ reportedLangs fs conf.Languages) := by
  have hiff : ∀ lang : String, langPath lang = basePath ↔ lang = "en" := by
    intro lang
    constructor
    · intro h
      have hd := congrArg String.data h
      rw [langPath, basePath, filePathJoin, filePathJoin] at hd
      simp only [String.data_append] at hd
      have h1 := List.append_cancel_left hd
      have h2 : lang.data ++ ".json".data = "en".data ++ ".json".data := by
        simpa using h1
      exact String.ext (List.append_cancel_right h2)
    · rintro rfl
      rfl
  have hmem : ∀ (fs : String → Except String locales) (langs : languages) (baseLoc : locales),
      fs basePath = .ok baseLoc →
      (∀ lang, langPath lang ≠ basePath → ∃ loc : locales, fs (langPath lang) = .ok loc) →
      ∀ lang, lang ∈ reportedLangs fs langs ↔ lang ∈ langs.map Prod.fst ∧ lang ≠ "en" := by
    intro fs langs baseLoc hbase hreads lang
    have hs : summary fs langs =
        .ok ((((langs.map Prod.fst).insertionSort (fun a b => strLe a b = true)).filter
            (fun l => !decide (langPath l = basePath))).map
          (fun l => (l, (locCount fs (langPath l) : Rat) * 100 / (baseLoc.length : Rat)))) := by
      simp only [summary, hbase]
      exact summaryGo_ok fs _ _ hreads
    rw [reportedLangs, hs]
    have hperm := List.perm_insertionSort (fun a b => strLe a b = true) (langs.map Prod.fst)
    simp [List.mem_filter, hperm.mem_iff, hiff lang, List.map_map, Function.comp]
  refine ⟨hiff, hmem, ?_⟩
  intro conf fs baseLoc hbase hreads hne hin
  have h2 := hmem fs conf.Languages baseLoc hbase hreads
  exact ⟨(h2 _).mpr ⟨hin, hne⟩, fun hc => ((h2 "en").mp hc).2 rfl⟩

/-- Witness for `summary_skips_exactly_en`: with `base_locale` "de", the
language "de" is reported against the base file while "en" is skipped. -/
theorem summary_skips_exactly_en_witness :
    langPath "en" = basePath
    ∧ ¬ langPath "de" = basePath
    ∧ "de" ∈ reportedLangs exampleFS [("de", "German"), ("en", "English")]
    ∧ "en" ∉ reportedLangs exampleFS [("de", "German"), ("en", "English")] := by
  have h := summary_skips_exactly_en
  have h3 := h.2.2
    { Languages := [("de", "German"), ("en", "English")], ProjectID := "home",
      BaseLangcode := "de", LocalizableFiles := [] }
    exampleFS exBaseLoc rfl exampleFS_reads (by decide) (by simp)
  exact ⟨(h.1 "en").mpr rfl, fun hc => by simpa using (h.1 "de").mp hc, h3.1, h3.2⟩

end Translations
